import Mathlib

/-!
Shallow embedding of `src/autocut/main.py` (killvxk/autocut): the interval
algebra (`_expand_segments`, `_remove_short_segments`,
`_merge_adjacent_segments`), the subtitle stitching of `Transcribe._save_srt`,
the checklist writer `Transcribe._save_md`, the markup importer
`Cutter._marked_index`, and the assembly control flow of `Cutter.run`.

Modeling conventions: Python floats are modeled as rationals, Python dicts as
structures, Python lists as `List`, text as `List Char`.  In-place mutation of
shared dict records (which happens in `_merge_adjacent_segments`) is modeled
by returning, next to the result list, the final state of the caller's input
list.  External collaborators (whisper, silero-vad, opencc, moviepy, the srt
store) are modeled from the specified external interfaces: inputs coming from
them are universally quantified, text canonicalization is the identity, media
engine calls are recorded as an operation trace, and the srt store's write
re-issues 1-based increasing indices in list order.
-/

/- Rational arithmetic is `@[irreducible]` in the library; make it unfold so
that concrete runs of the embedded functions can be evaluated by `decide`. -/
unseal Rat.add Rat.sub Rat.mul Rat.inv Rat.ofScientific

namespace AutoCut

/-- A time segment, the Python dict `{'start': _, 'end': _}`.  The key
`end` is a Lean keyword and is modeled by the field name `stop`. -/
structure Seg where
  start : ℚ
  stop : ℚ
deriving DecidableEq

/-- `segments[i]` with an out-of-range default `{0, 0}` (all uses are in
range). -/
def segAt (segments : List Seg) (i : ℕ) : Seg := segments.getD i ⟨0, 0⟩

/-- `_expand_segments(segments, expand_head, expand_tail, total_length)`
(main.py lines 13-23): pad the head and tail of each segment, clamping to
the *original* neighbor boundaries, with `0` at the front and
`total_length` at the back. -/
def _expand_segments (segments : List Seg) (expand_head expand_tail total_length : ℚ) :
    List Seg :=
  (List.range segments.length).map fun i =>
    Seg.mk
      (max ((segAt segments i).start - expand_head)
        (if 0 < i then (segAt segments (i - 1)).stop else 0))
      (min ((segAt segments i).stop + expand_tail)
        (if i < segments.length - 1 then (segAt segments (i + 1)).start else total_length))

/-- `_remove_short_segments(segments, threshold)` (main.py lines 25-27):
keep the segments whose length exceeds `threshold`. -/
def _remove_short_segments (segments : List Seg) (threshold : ℚ) : List Seg :=
  segments.filter fun s => threshold < s.stop - s.start

/-- The value-level greedy scan of `_merge_adjacent_segments`: absorb the
next segment into the accumulator `s` while its start is below
`s.stop + threshold`, otherwise flush `s` and restart at that segment. -/
def mergeAux (threshold : ℚ) : Seg → List Seg → List Seg
  | s, [] => [s]
  | s, x :: xs =>
    if x.start < s.stop + threshold then mergeAux threshold (Seg.mk s.start x.stop) xs
    else s :: mergeAux threshold x xs

/-- Modeled from the spec's words (section 4.1 `mergeAdjacent`): the pure,
immutable-snapshot greedy left-to-right merge the spec prescribes, used to
compare the mutating source implementation against. -/
def mergeAdjacentSnapshot (segments : List Seg) (threshold : ℚ) : List Seg :=
  match segments with
  | [] => []
  | s :: rest => mergeAux threshold s rest

/-- Heap-level scan of `_merge_adjacent_segments` (main.py lines 29-43).
The Python loop keeps `s = segments[i]` aliased into the caller's list and
executes `s['end'] = segments[j]['end']` on every absorption, so the record
at each group head is mutated in place.  `absorbed` collects (in reverse)
the records absorbed into the current accumulator; the second component of
the result is the final state of the caller's list. -/
def mergeStAux (threshold : ℚ) : Seg → List Seg → List Seg → List Seg × List Seg
  | s, absorbed, [] => ([s], s :: absorbed.reverse)
  | s, absorbed, x :: xs =>
    if x.start < s.stop + threshold then
      mergeStAux threshold (Seg.mk s.start x.stop) (x :: absorbed) xs
    else
      ((s :: (mergeStAux threshold x [] xs).1),
        ((s :: absorbed.reverse) ++ (mergeStAux threshold x [] xs).2))

/-- `_merge_adjacent_segments(segments, threshold)` (main.py lines 29-43),
with the heap effect made explicit: the first component is the returned
`results` list, the second is the final state of the caller's `segments`
list (the records it held, after the in-place `s['end']` writes). -/
def _merge_adjacent_segments (segments : List Seg) (threshold : ℚ) :
    List Seg × List Seg :=
  match segments with
  | [] => ([], [])
  | s :: rest => mergeStAux threshold s [] rest

/-- Total covered duration of a segment list (sum of lengths). -/
def sumDur (segments : List Seg) : ℚ := (segments.map fun s => s.stop - s.start).sum

/-- The spec's TimeInterval invariant over a processed list:
`0 <= start_i < end_i <= L` for each interval and `end_i <= start_(i+1)`
for consecutive intervals. -/
def SegsWF (segments : List Seg) (L : ℚ) : Prop :=
  (∀ i, i < segments.length →
    0 ≤ (segAt segments i).start ∧
    (segAt segments i).start < (segAt segments i).stop ∧
    (segAt segments i).stop ≤ L) ∧
  (∀ i, i < segments.length - 1 →
    (segAt segments i).stop ≤ (segAt segments (i + 1)).start)

instance (segments : List Seg) (L : ℚ) : Decidable (SegsWF segments L) := by
  unfold SegsWF; infer_instance

/-- `_check_exists(output, force)` (main.py lines 45-52), with the
filesystem probe `os.path.exists(output)` passed in as a boolean. -/
def _check_exists (pathExists force : Bool) : Bool :=
  if pathExists then (if force then false else true) else false

/-! ### Subtitle stitching (`Transcribe._save_srt`, main.py lines 127-151) -/

/-- One whisper transcript segment `{'start': _, 'end': _, 'text': _}`,
with timestamps relative to the transcribed audio slice. -/
structure TranscriptSeg where
  start : ℚ
  stop : ℚ
  text : List Char
deriving DecidableEq

/-- One element of `transcribe_results`: the transcript segments for one
voice-activity window, together with `r['origin_timestamp']` (the window, in
samples). -/
structure TranscribeResult where
  origin : Seg
  segments : List TranscriptSeg
deriving DecidableEq

/-- An `srt.Subtitle` record `{index, start, end, content}`; `end` is
modeled by `stop` and timedeltas by rational seconds. -/
structure Subtitle where
  index : ℕ
  start : ℚ
  stop : ℚ
  content : List Char
deriving DecidableEq

/-- Python's `str.strip()`: drop whitespace from both ends. -/
def trimChars (l : List Char) : List Char :=
  ((l.dropWhile Char.isWhitespace).reverse.dropWhile Char.isWhitespace).reverse

/-- The sentinel text of a gap-fill placeholder entry. -/
def noSpeechText : List Char := "< No Speech >".toList

/-- `_add_sub(start, end, text)` (main.py lines 132-136): build a subtitle
with `index=0` and stripped text.  The opencc `t2s` conversion is an
external text-canonicalization collaborator and is modeled as the
identity. -/
def _add_sub (start stop : ℚ) (text : List Char) : Subtitle :=
  ⟨0, start, stop, trimChars text⟩

/-- The loop body of `_save_srt` over the flattened `(origin, segment)`
pairs, carrying the running cursor `prev_end`. -/
def srtLoop (sr : ℚ) : ℚ → List (Seg × TranscriptSeg) → List Subtitle
  | _, [] => []
  | prevEnd, p :: rest =>
    if prevEnd + 1 < p.2.start + p.1.start / sr then
      _add_sub prevEnd (p.2.start + p.1.start / sr) noSpeechText ::
        _add_sub (p.2.start + p.1.start / sr)
          (min (p.2.stop + p.1.start / sr) (p.1.stop / sr)) p.2.text ::
        srtLoop sr (min (p.2.stop + p.1.start / sr) (p.1.stop / sr)) rest
    else
      _add_sub (p.2.start + p.1.start / sr)
          (min (p.2.stop + p.1.start / sr) (p.1.stop / sr)) p.2.text ::
        srtLoop sr (min (p.2.stop + p.1.start / sr) (p.1.stop / sr)) rest

/-- The flattened iteration order of `_save_srt`'s two nested loops: each
transcript segment paired with its window's `origin_timestamp`. -/
def transcribePairs (results : List TranscribeResult) : List (Seg × TranscriptSeg) :=
  (results.map fun r => r.segments.map fun s => (r.origin, s)).flatten

/-- `_save_srt(output, transcribe_results)` (main.py lines 127-151), up to
the external srt store: the list `subs` built by the loop, starting from
`prev_end = 0`.  `sr` is `self.sampling_rate`. -/
def _save_srt (sr : ℚ) (results : List TranscribeResult) : List Subtitle :=
  srtLoop sr 0 (transcribePairs results)

/-- The real (non-placeholder) subtitle made from one `(origin, segment)`
pair: absolute start `local + origin.start / sr`, absolute end clipped to
the voice window's end `origin.stop / sr`. -/
def absSubtitle (sr : ℚ) (p : Seg × TranscriptSeg) : Subtitle :=
  _add_sub (p.2.start + p.1.start / sr)
    (min (p.2.stop + p.1.start / sr) (p.1.stop / sr)) p.2.text

/-- All real entries of the stitched timeline, in emission order. -/
def realSubtitles (sr : ℚ) (results : List TranscribeResult) : List Subtitle :=
  (transcribePairs results).map (absSubtitle sr)

/-- Modeled from the spec's words (the gap-fill invariant, sections 4.2 and
8): between consecutive real entries whose gap to the running cursor
exceeds `1.0` second, exactly one placeholder spanning `[prevEnd, start)`
with the sentinel text is inserted; the cursor becomes each real entry's
absolute end. -/
def gapAnnotate (prev : ℚ) : List Subtitle → List Subtitle
  | [] => []
  | e :: es =>
    if 1 < e.start - prev then
      _add_sub prev e.start noSpeechText :: e :: gapAnnotate e.stop es
    else
      e :: gapAnnotate e.stop es

/-- Index re-issue scheme of the external timed-text store: entry `k` of
the written list gets index `i + k`. -/
def srtComposeFrom (i : ℕ) : List Subtitle → List Subtitle
  | [] => []
  | e :: es => ⟨i, e.start, e.stop, e.content⟩ :: srtComposeFrom (i + 1) es

/-- Models the external timed-text store's write (`srt.compose`, main.py
line 151) from its specified interface: entries are serialized in list
order and index values are re-issued with a stable increasing scheme
starting at 1. -/
def srt_compose (subs : List Subtitle) : List Subtitle := srtComposeFrom 1 subs

/-! ### Markup export and import (`Transcribe._save_md`, `Cutter._marked_index`) -/

/-- `_EDIT_DONE` (main.py line 11). -/
def _EDIT_DONE : List Char := "DONE EDITTING".toList

/-- Consume one expected character. -/
def expectChar (c : Char) : List Char → Option (List Char)
  | x :: r => if x = c then some r else none
  | [] => none

/-- The regex piece `' +'`: one or more spaces, consumed greedily. -/
def spaces1 : List Char → Option (List Char)
  | x :: r => if x = ' ' then some (r.dropWhile fun d => d = ' ') else none
  | [] => none

/-- The regex capture `'([ x])'`. -/
def capturebox : List Char → Option (Char × List Char)
  | x :: r => if x = ' ' ∨ x = 'x' then some (x, r) else none
  | [] => none

/-- Consume an expected literal. -/
def expectLit : List Char → List Char → Option (List Char)
  | [], r => some r
  | c :: cs, r => (expectChar c r).bind (expectLit cs)

/-- The shared prefix of both `_marked_index` patterns,
`'- +\[([ x])\] +'` anchored at the start of the line: returns the
captured check character and the rest of the line. -/
def checkbox (l : List Char) : Option (Char × List Char) :=
  (expectChar '-' l).bind fun r1 =>
  (spaces1 r1).bind fun r2 =>
  (expectChar '[' r2).bind fun r3 =>
  (capturebox r3).bind fun p =>
  (expectChar ']' p.2).bind fun r4 =>
  (spaces1 r4).map fun r5 => (p.1, r5)

/-- The regex capture `'(\d+)'` followed by anything: the greedy leading
digit run, parsed by `int()`. -/
def digits1 (l : List Char) : Option ℕ :=
  if (l.takeWhile Char.isDigit).isEmpty then none
  else some ((l.takeWhile Char.isDigit).foldl (fun n c => 10 * n + (c.toNat - 48)) 0)

/-- `re.match(r'- +\[([ x])\] +DONE EDITTING', l)` (main.py line 234):
the captured check character, when the line matches. -/
def matchDone (l : List Char) : Option Char :=
  (checkbox l).bind fun p => (expectLit _EDIT_DONE p.2).map fun _ => p.1

/-- `re.match(r'- +\[([ x])\] +\[(\d+)', l)` (main.py line 237): the
captured check character and index, when the line matches. -/
def matchIndexLine (l : List Char) : Option (Char × ℕ) :=
  (checkbox l).bind fun p =>
  (expectChar '[' p.2).bind fun r =>
  (digits1 r).map fun n => (p.1, n)

/-- The line loop of `_marked_index` (main.py lines 231-240): every line
matching the first pattern overwrites `done` with its check state; every
checked line matching the second pattern appends its index. -/
def markedGo : Bool → List ℕ → List (List Char) → Bool × List ℕ
  | done, ret, [] => (done, ret)
  | done, ret, l :: ls =>
    markedGo
      (match matchDone l with
        | some c => decide (c = 'x')
        | none => done)
      (match matchIndexLine l with
        | some p => if p.1 = 'x' then ret ++ [p.2] else ret
        | none => ret)
      ls

/-- Split a character stream at newline characters, modeling
`f.readlines()` over the written file (the kept line terminators are
irrelevant to the anchored patterns). -/
def linesOf : List Char → List (List Char)
  | [] => [[]]
  | c :: r =>
    if c = '\n' then [] :: linesOf r
    else (c :: (linesOf r).headD []) :: (linesOf r).tail

/-- `Cutter._marked_index(md_fn)` (main.py lines 228-240) applied to the
contents of the markup file. -/
def _marked_index (file : List Char) : Bool × List ℕ :=
  markedGo false [] (linesOf file)

/-- One decimal digit character. -/
def digitChar (d : ℕ) : Char := Char.ofNat (48 + d % 10)

/-- Decimal digits of a natural number, fuel-indexed for structural
recursion (`natChars` always supplies enough fuel). -/
def natCharsAux : ℕ → ℕ → List Char
  | 0, _ => []
  | fuel + 1, n => if n < 10 then [digitChar n] else natCharsAux fuel (n / 10) ++ [digitChar (n % 10)]

/-- Python `str(n)` for a natural number. -/
def natChars (n : ℕ) : List Char := natCharsAux (n + 1) n

/-- Python `f'{q:.1f}'`: the value rounded to one decimal place, rendered
as sign, integer digits, a dot and one fractional digit. -/
def fmtQ1 (q : ℚ) : List Char :=
  (if round (q * 10) < 0 then ['-'] else []) ++
    natChars ((round (q * 10)).natAbs / 10) ++
    '.' :: [digitChar (round (q * 10)).natAbs]

/-- `MARK` (main.py line 157): the unchecked checklist marker. -/
def MARK : List Char := "- [ ] ".toList

/-- Python `f'{pre:15}'`: left-justify to a minimal width of 15 by
padding with spaces. -/
def pad15 (l : List Char) : List Char := l ++ List.replicate (15 - l.length) ' '

/-- `f'{MARK}[{s.index},{dur:.1f}s]'` (main.py line 164). -/
def mdPre (s : Subtitle) : List Char :=
  MARK ++ "[".toList ++ natChars s.index ++ ",".toList ++ fmtQ1 (s.stop - s.start) ++ "s]".toList

/-- `f'{pre:15} {s.content.strip()}'` (main.py lines 165-167). -/
def mdLine (s : Subtitle) : List Char :=
  pad15 (mdPre s) ++ ' ' :: trimChars s.content

/-- The instruction header of the markup file (main.py line 159), without
its trailing newline; `basename` is the displayed srt file name. -/
def mdHeaderCore (basename : List Char) : List Char :=
  "Texts generated from [".toList ++ basename ++ "](".toList ++ basename ++
    "). Mark the sentences to keep for autocut. Then mark the following item if done editing.".toList

/-- `md[0]` (main.py line 159): the header f-string ends with `\n`. -/
def mdHeader (basename : List Char) : List Char := mdHeaderCore basename ++ ['\n']

/-- `md[1]` (main.py line 160): `MARK + _EDIT_DONE`, emitted unchecked. -/
def mdDoneLine : List Char := MARK ++ _EDIT_DONE

/-- The format reminder (main.py line 161), without its surrounding
newlines. -/
def mdFormatCore : List Char :=
  "The format is [subtitle_index,duration_in_second] subtitle context".toList

/-- `md[2]` (main.py line 161): the literal starts and ends with `\n`. -/
def mdFormatLine : List Char := '\n' :: (mdFormatCore ++ ['\n'])

/-- `'\n'.join(md)` (main.py line 169). -/
def joinNL : List (List Char) → List Char
  | [] => []
  | [l] => l
  | l :: ls => l ++ '\n' :: joinNL ls

/-- `Transcribe._save_md(md_fn, srt_fn)` (main.py lines 153-169): the
character contents written to the markup file, generated from the parsed
subtitle list and the srt file's basename. -/
def _save_md (basename : List Char) (subs : List Subtitle) : List Char :=
  joinNL ([mdHeader basename, mdDoneLine, mdFormatLine] ++ subs.map mdLine)

/-! ### Assembly control flow (`Cutter.run`, main.py lines 175-226) -/

/-- One call into the external media engine (moviepy), in program order. -/
inductive MediaOp where
  | openVideo
  | subclip (start stop : ℚ)
  | concatVideo
  | setFps (rate : ℕ)
  | audioNormalize
  | writeVideofile
deriving DecidableEq

/-- How one `Cutter.run` invocation ends. -/
inductive CutOutcome where
  | skippedExists
  | notDone
  | wrote
deriving DecidableEq

/-- `Cutter.run` (main.py lines 175-226) after role resolution, with the
filesystem and the parsed srt entries passed in: the outcome together
with the trace of media-engine calls.  `_check_exists` gates everything;
in markup mode an incomplete markup skips before any media call; otherwise
the selected entries are trimmed in order, concatenated, resampled to
44100 Hz, loudness-normalized and written. -/
def Cutter_run (pathExists force useMd : Bool) (subs : List Subtitle) (mdFile : List Char) :
    CutOutcome × List MediaOp :=
  if _check_exists pathExists force then (CutOutcome.skippedExists, [])
  else
    match
      (if useMd then
        (if (_marked_index mdFile).1 then
          some (subs.filter fun s => s.index ∈ (_marked_index mdFile).2)
        else none)
      else some subs) with
    | none => (CutOutcome.notDone, [])
    | some chosen =>
      (CutOutcome.wrote,
        MediaOp.openVideo ::
          (chosen.map fun x => MediaOp.subclip x.start x.stop) ++
          [MediaOp.concatVideo, MediaOp.setFps 44100, MediaOp.audioNormalize,
            MediaOp.writeVideofile])

/-! ### Shared lemmas -/

theorem expand_length (segments : List Seg) (eh et L : ℚ) :
    (_expand_segments segments eh et L).length = segments.length := by
  simp [_expand_segments]

theorem expand_segAt (segments : List Seg) (eh et L : ℚ) {i : ℕ} (hi : i < segments.length) :
    segAt (_expand_segments segments eh et L) i =
      Seg.mk
        (max ((segAt segments i).start - eh)
          (if 0 < i then (segAt segments (i - 1)).stop else 0))
        (min ((segAt segments i).stop + et)
          (if i < segments.length - 1 then (segAt segments (i + 1)).start else L)) := by
  unfold _expand_segments segAt
  rw [List.getD_eq_getElem?_getD, List.getElem?_map, List.getElem?_range hi]
  rfl

theorem mergeStAux_fst (t : ℚ) :
    ∀ (rest : List Seg) (s : Seg) (absorbed : List Seg),
      (mergeStAux t s absorbed rest).1 = mergeAux t s rest := by
  intro rest
  induction rest with
  | nil => intro s absorbed; rfl
  | cons x xs ih =>
    intro s absorbed
    simp only [mergeStAux, mergeAux]
    split
    · exact ih _ _
    · simp [ih]

theorem mergeStAux_snd_map_start (t : ℚ) :
    ∀ (rest : List Seg) (s : Seg) (absorbed : List Seg),
      ((mergeStAux t s absorbed rest).2).map Seg.start =
        s.start :: (absorbed.reverse.map Seg.start ++ rest.map Seg.start) := by
  intro rest
  induction rest with
  | nil => intro s absorbed; simp [mergeStAux]
  | cons x xs ih =>
    intro s absorbed
    simp only [mergeStAux]
    split
    · rw [ih]
      simp [List.map_append]
    · simp only [List.map_cons, List.map_append, List.cons_append, List.append_assoc, ih x []]
      simp

theorem mergeAux_length (t : ℚ) :
    ∀ (l : List Seg) (s : Seg), (mergeAux t s l).length ≤ l.length + 1 := by
  intro l
  induction l with
  | nil => intro s; simp [mergeAux]
  | cons x xs ih =>
    intro s
    simp only [mergeAux]
    split
    · exact le_trans (ih _) (by simp)
    · simpa using ih x

theorem mergeAux_sumDur (t : ℚ) :
    ∀ (l : List Seg) (s : Seg),
      List.Chain' (fun a b => a.stop ≤ b.start) (s :: l) →
      sumDur (s :: l) ≤ sumDur (mergeAux t s l) := by
  intro l
  induction l with
  | nil => intro s _; simp [mergeAux]
  | cons x xs ih =>
    intro s hch
    rw [List.chain'_cons] at hch
    obtain ⟨hsx, hch1⟩ := hch
    simp only [mergeAux]
    split
    · have hch2 : List.Chain' (fun a b => a.stop ≤ b.start) (Seg.mk s.start x.stop :: xs) := by
        cases xs with
        | nil => simp
        | cons y ys =>
          rw [List.chain'_cons] at hch1 ⊢
          exact ⟨hch1.1, hch1.2⟩
      have hmain := ih (Seg.mk s.start x.stop) hch2
      have hstep : sumDur (s :: x :: xs) ≤ sumDur (Seg.mk s.start x.stop :: xs) := by
        simp only [sumDur, List.map_cons, List.sum_cons]
        linarith
      exact le_trans hstep hmain
    · have hmain := ih x hch1
      simp only [sumDur, List.map_cons, List.sum_cons] at hmain ⊢
      linarith

theorem srtLoop_eq_gapAnnotate (sr : ℚ) :
    ∀ (ps : List (Seg × TranscriptSeg)) (prev : ℚ),
      srtLoop sr prev ps = gapAnnotate prev (ps.map (absSubtitle sr)) := by
  intro ps
  induction ps with
  | nil => intro prev; rfl
  | cons p rest ih =>
    intro prev
    simp only [srtLoop, List.map_cons, gapAnnotate, absSubtitle, _add_sub]
    have hiff : (prev + 1 < p.2.start + p.1.start / sr) ↔
        (1 < p.2.start + p.1.start / sr - prev) := by
      constructor <;> intro <;> linarith
    rw [if_congr hiff rfl rfl]
    split <;> rw [ih]

theorem srtComposeFrom_map_index :
    ∀ (l : List Subtitle) (i : ℕ),
      (srtComposeFrom i l).map Subtitle.index = List.range' i l.length := by
  intro l
  induction l with
  | nil => intro i; rfl
  | cons e es ih =>
    intro i
    simp only [srtComposeFrom, List.map_cons, List.length_cons]
    rw [ih]
    rfl

theorem srtComposeFrom_payload :
    ∀ (l : List Subtitle) (i : ℕ),
      (srtComposeFrom i l).map (fun e => (e.start, e.stop, e.content)) =
        l.map (fun e => (e.start, e.stop, e.content)) := by
  intro l
  induction l with
  | nil => intro i; rfl
  | cons e es ih =>
    intro i
    simp only [srtComposeFrom, List.map_cons]
    rw [ih]

/-! ### Claims about the interval algebra -/

/-- C1, counterexample: the claimed bounds fail as stated.  On the
degenerate input `segments = [{4,5}]`, `totalLength = 3` (total length
smaller than the interval's end) and zero pads, `_expand_segments`
returns `[{4,3}]`, a negative-length, out-of-range interval. -/
theorem c1_counterexample :
    ¬ (∀ s ∈ _expand_segments [⟨4, 5⟩] 0 0 3,
        0 ≤ s.start ∧ s.start < s.stop ∧ s.stop ≤ 3) := by
  decide

/-- C1, amended: for input lists satisfying the TimeInterval invariant
(`0 ≤ start < end ≤ totalLength`, consecutive `end_i ≤ start_(i+1)`),
nonnegative pads, and pads that fit into each original inter-interval gap,
every `_expand_segments` result interval satisfies
`0 ≤ start < end ≤ totalLength` and consecutive results satisfy
`end_i ≤ start_(i+1)` — that is, the result again satisfies the
invariant. -/
theorem c1_expand_invariant (segments : List Seg) (eh et L : ℚ)
    (hwf : SegsWF segments L) (hh : 0 ≤ eh) (ht : 0 ≤ et)
    (hgap : ∀ i, i < segments.length - 1 →
      eh + et ≤ (segAt segments (i + 1)).start - (segAt segments i).stop) :
    SegsWF (_expand_segments segments eh et L) L := by
  obtain ⟨hbd, hch⟩ := hwf
  constructor
  · intro i hi
    rw [expand_length] at hi
    rw [expand_segAt segments eh et L hi]
    obtain ⟨h0, hlt, hle⟩ := hbd i hi
    dsimp only
    refine ⟨?_, ?_, ?_⟩
    · rcases Nat.eq_zero_or_pos i with rfl | h0i
      · rw [if_neg (lt_irrefl 0)]
        exact le_max_of_le_right le_rfl
      · rw [if_pos h0i]
        have hp := hbd (i - 1) (by omega)
        exact le_max_of_le_right (le_of_lt (lt_of_le_of_lt hp.1 hp.2.1))
    · rcases Nat.eq_zero_or_pos i with rfl | h0i
      · rw [if_neg (lt_irrefl 0)]
        by_cases hlast : 0 < segments.length - 1
        · rw [if_pos hlast]
          have hnx := hbd 1 (by omega)
          have hc0 := hch 0 hlast
          exact max_lt (lt_min (by linarith) (by linarith))
            (lt_min (by linarith) (by linarith))
        · rw [if_neg hlast]
          exact max_lt (lt_min (by linarith) (by linarith))
            (lt_min (by linarith) (by linarith))
      · rw [if_pos h0i]
        have hp := hbd (i - 1) (by omega)
        have hcp := hch (i - 1) (by omega)
        have hieq : i - 1 + 1 = i := by omega
        rw [hieq] at hcp
        by_cases hlast : i < segments.length - 1
        · rw [if_pos hlast]
          have hnx := hbd (i + 1) (by omega)
          have hci := hch i hlast
          exact max_lt (lt_min (by linarith) (by linarith))
            (lt_min (by linarith) (by linarith))
        · rw [if_neg hlast]
          exact max_lt (lt_min (by linarith) (by linarith))
            (lt_min (by linarith) (by linarith))
    · by_cases hlast : i < segments.length - 1
      · rw [if_pos hlast]
        have hnx := hbd (i + 1) (by omega)
        exact le_trans (min_le_right _ _) (le_of_lt (lt_of_lt_of_le hnx.2.1 hnx.2.2))
      · rw [if_neg hlast]
        exact min_le_right _ _
  · intro i hi
    rw [expand_length] at hi
    have hi1 : i < segments.length := by omega
    have hi2 : i + 1 < segments.length := by omega
    rw [expand_segAt segments eh et L hi1, expand_segAt segments eh et L hi2]
    have hg := hgap i hi
    dsimp only
    rw [if_pos hi, if_pos (Nat.succ_pos i), Nat.add_sub_cancel]
    exact le_trans (min_le_left _ _) (le_trans (by linarith) (le_max_left _ _))

/-- C1, witness: a concrete well-formed run of the amended theorem,
Scenario A's input. -/
theorem c1_expand_invariant_witness :
    SegsWF [⟨0, 1⟩, ⟨2, 3⟩] 5 ∧ (0 : ℚ) ≤ 1 / 2 ∧ (0 : ℚ) ≤ 0 ∧
    (∀ i, i < ([⟨0, 1⟩, ⟨2, 3⟩] : List Seg).length - 1 →
      (1 / 2 : ℚ) + 0 ≤ (segAt [⟨0, 1⟩, ⟨2, 3⟩] (i + 1)).start -
        (segAt [⟨0, 1⟩, ⟨2, 3⟩] i).stop) ∧
    SegsWF (_expand_segments [⟨0, 1⟩, ⟨2, 3⟩] (1 / 2) 0 5) 5 :=
  ⟨by decide, by norm_num, le_refl 0, by decide,
    c1_expand_invariant [⟨0, 1⟩, ⟨2, 3⟩] (1 / 2) 0 5 (by decide) (by norm_num)
      (le_refl 0) (by decide)⟩

/-- C2, counterexample: `_merge_adjacent_segments` is not a pure
functional transform — it mutates the caller-held interval records.  On
input `[{0,1},{1,2}]` with threshold `1`, the caller's list afterwards is
`[{0,2},{1,2}]`, not the input. -/
theorem c2_counterexample :
    (_merge_adjacent_segments [⟨0, 1⟩, ⟨1, 2⟩] 1).2 ≠ [⟨0, 1⟩, ⟨1, 2⟩] := by
  decide

/-- C2, amended: `_expand_segments` builds fresh records and
`_remove_short_segments` returns an order-preserving selection (a sublist)
of the intact input records; `_merge_adjacent_segments` returns the same
values as the pure immutable-snapshot greedy merge, but mutates absorbed
group heads in place: the caller's list afterwards has unchanged length
and `start` fields, only `end` fields were overwritten. -/
theorem c2_merge_values_amended (segments : List Seg) (t : ℚ) :
    (_merge_adjacent_segments segments t).1 = mergeAdjacentSnapshot segments t ∧
    (_merge_adjacent_segments segments t).2.map Seg.start = segments.map Seg.start ∧
    (_merge_adjacent_segments segments t).2.length = segments.length ∧
    (_remove_short_segments segments t).Sublist segments := by
  have hsub : (_remove_short_segments segments t).Sublist segments := by
    unfold _remove_short_segments
    exact List.filter_sublist _
  cases segments with
  | nil => exact ⟨rfl, rfl, rfl, hsub⟩
  | cons s rest =>
    refine ⟨mergeStAux_fst t rest s [], ?_, ?_, hsub⟩
    · rw [show (_merge_adjacent_segments (s :: rest) t).2 = (mergeStAux t s [] rest).2 from rfl,
        mergeStAux_snd_map_start]
      simp
    · have hmap := mergeStAux_snd_map_start t rest s []
      have hlen := congrArg List.length hmap
      simp only [List.length_map, List.length_cons, List.reverse_nil, List.map_nil,
        List.nil_append, List.length_append] at hlen
      simpa using hlen

/-- C3: Scenario A.  `_expand_segments([{0,1},{2,3}], 0.5, 0, 5)` returns
exactly `[{0,1},{1.5,3}]`: each new start is
`max(start_i - padHead, previous original end | 0)` and each new end is
`min(end_i + padTail, next original start | totalLength)`, the second
interval's start clamping to the first's original end
`max(2 - 0.5, 1) = 1.5`. -/
theorem c3_expand_scenarioA :
    _expand_segments [⟨0, 1⟩, ⟨2, 3⟩] (1 / 2) 0 5 = [⟨0, 1⟩, ⟨3 / 2, 3⟩] := by
  decide

/-- C4, counterexample: on the (overlapping) input `[{0,10},{1,2}]` with
threshold `0`, greedy absorption rewrites the accumulator's end to the
absorbed end, producing `[{0,2}]`: the total covered duration drops from
`11` to `2`, refuting the claim for arbitrary segment lists. -/
theorem c4_counterexample :
    ¬ (sumDur [⟨0, 10⟩, ⟨1, 2⟩] ≤
        sumDur (_merge_adjacent_segments [⟨0, 10⟩, ⟨1, 2⟩] 0).1) := by
  decide

/-- C4, amended: for every segment list and threshold
`_merge_adjacent_segments` never increases the interval count, and it
never decreases the total covered duration provided consecutive input
intervals do not overlap (`end_i ≤ start_(i+1)`). -/
theorem c4_merge_monotone_amended (segments : List Seg) (t : ℚ) :
    (_merge_adjacent_segments segments t).1.length ≤ segments.length ∧
    (List.Chain' (fun a b => a.stop ≤ b.start) segments →
      sumDur segments ≤ sumDur (_merge_adjacent_segments segments t).1) := by
  cases segments with
  | nil => exact ⟨le_refl 0, fun _ => le_refl 0⟩
  | cons s rest =>
    constructor
    · rw [show (_merge_adjacent_segments (s :: rest) t).1 = mergeAux t s rest from
        mergeStAux_fst t rest s []]
      simpa using mergeAux_length t rest s
    · intro hch
      rw [show (_merge_adjacent_segments (s :: rest) t).1 = mergeAux t s rest from
        mergeStAux_fst t rest s []]
      exact mergeAux_sumDur t rest s hch

/-- C4, witness: the amended theorem run on the non-overlapping input
`[{0,1},{2,3}]` with threshold `5` (which merges both intervals). -/
theorem c4_merge_monotone_witness :
    List.Chain' (fun a b => a.stop ≤ b.start) [(⟨0, 1⟩ : Seg), ⟨2, 3⟩] ∧
    (_merge_adjacent_segments [⟨0, 1⟩, ⟨2, 3⟩] 5).1.length ≤
      ([⟨0, 1⟩, ⟨2, 3⟩] : List Seg).length ∧
    sumDur [⟨0, 1⟩, ⟨2, 3⟩] ≤ sumDur (_merge_adjacent_segments [⟨0, 1⟩, ⟨2, 3⟩] 5).1 :=
  ⟨by norm_num [List.chain'_cons],
    (c4_merge_monotone_amended [⟨0, 1⟩, ⟨2, 3⟩] 5).1,
    (c4_merge_monotone_amended [⟨0, 1⟩, ⟨2, 3⟩] 5).2 (by norm_num [List.chain'_cons])⟩

/-! ### Claims about subtitle stitching -/

/-- C5: the stitched timeline equals the spec's gap-annotated sequence of
real entries: the cursor starts at `0` and runs across the whole file,
after each real entry it becomes that entry's absolute end, and between
consecutive real entries exactly one placeholder
`[prevEnd, absStart)` with the sentinel text appears iff the gap
exceeds `1.0` second. -/
theorem c5_gap_fill (sr : ℚ) (results : List TranscribeResult) :
    _save_srt sr results = gapAnnotate 0 (realSubtitles sr results) :=
  srtLoop_eq_gapAnnotate sr (transcribePairs results) 0

/-- C6: after the timed-text store's write, every entry of the stitched
timeline (placeholders included) carries index `1, 2, 3, ...` in emission
order, and the entries' payloads are unchanged. -/
theorem c6_sequential_index (sr : ℚ) (results : List TranscribeResult) :
    (srt_compose (_save_srt sr results)).map Subtitle.index =
      List.range' 1 (_save_srt sr results).length ∧
    (srt_compose (_save_srt sr results)).map (fun e => (e.start, e.stop, e.content)) =
      (_save_srt sr results).map (fun e => (e.start, e.stop, e.content)) :=
  ⟨srtComposeFrom_map_index _ 1, srtComposeFrom_payload _ 1⟩

/-- C10: because the cursor starts at `0`, when the first real entry's
absolute start exceeds `1.0` the stitched timeline begins with a
placeholder spanning `[0, firstStart)` with the sentinel text, before any
real entry. -/
theorem c10_leading_placeholder (sr : ℚ) (results : List TranscribeResult)
    (e : Subtitle) (rest : List Subtitle)
    (h1 : realSubtitles sr results = e :: rest) (h2 : 1 < e.start) :
    _save_srt sr results =
      _add_sub 0 e.start noSpeechText :: e :: gapAnnotate e.stop rest := by
  have h := srtLoop_eq_gapAnnotate sr (transcribePairs results) 0
  unfold _save_srt
  rw [h, show (transcribePairs results).map (absSubtitle sr) = realSubtitles sr results
    from rfl, h1]
  simp only [gapAnnotate]
  rw [if_pos (by linarith : (1 : ℚ) < e.start - 0)]

/-- C10, witness: one voice window `[32000, 64000]` samples at rate
`16000` with a single transcript segment `[0,1]` yields the first real
entry `[2,3]`; the stitched output starts with the placeholder `[0,2)`. -/
theorem c10_leading_placeholder_witness :
    realSubtitles 16000 [⟨⟨32000, 64000⟩, [⟨0, 1, "hi".toList⟩]⟩] =
      [⟨0, 2, 3, "hi".toList⟩] ∧
    (1 : ℚ) < (Subtitle.mk 0 2 3 "hi".toList).start ∧
    _save_srt 16000 [⟨⟨32000, 64000⟩, [⟨0, 1, "hi".toList⟩]⟩] =
      _add_sub 0 (Subtitle.mk 0 2 3 "hi".toList).start noSpeechText ::
        Subtitle.mk 0 2 3 "hi".toList ::
        gapAnnotate (Subtitle.mk 0 2 3 "hi".toList).stop [] :=
  ⟨by decide, by decide,
    c10_leading_placeholder 16000 [⟨⟨32000, 64000⟩, [⟨0, 1, "hi".toList⟩]⟩]
      (Subtitle.mk 0 2 3 "hi".toList) [] (by decide) (by decide)⟩

/-! ### Claims about markup import and assembly -/

/-- C7: Scenario C.  A markup file with the completion sentinel checked
and indices `3` and `5` checked imports as
`(isComplete, selected) = (true, [3,5])`, and the assembly run trims
exactly the subtitle entries with indices `3` and `5`, in their original
ascending order, between open and concatenate/normalize/write. -/
theorem c7_scenarioC :
    _marked_index (joinNL ["- [x] DONE EDITTING".toList,
      "- [x] [3,1.0s] keep three".toList, "- [ ] [4,2.0s] drop four".toList,
      "- [x] [5,0.5s] keep five".toList]) = (true, [3, 5]) ∧
    Cutter_run false false true
      [⟨1, 0, 1, "a".toList⟩, ⟨2, 1, 2, "b".toList⟩, ⟨3, 2, 3, "c".toList⟩,
        ⟨4, 3, 4, "d".toList⟩, ⟨5, 4, 5, "e".toList⟩, ⟨6, 5, 6, "f".toList⟩]
      (joinNL ["- [x] DONE EDITTING".toList,
        "- [x] [3,1.0s] keep three".toList, "- [ ] [4,2.0s] drop four".toList,
        "- [x] [5,0.5s] keep five".toList]) =
      (CutOutcome.wrote,
        [MediaOp.openVideo, MediaOp.subclip 2 3, MediaOp.subclip 4 5,
          MediaOp.concatVideo, MediaOp.setFps 44100, MediaOp.audioNormalize,
          MediaOp.writeVideofile]) := by
  decide

/-- C9: if the output path exists and overwrite is not forced, the
assembly run performs zero media-engine operations and reports the skip;
with force set it never takes the already-exists skip. -/
theorem c9_skip_exists (pathExists force useMd : Bool) (subs : List Subtitle)
    (mdFile : List Char) :
    (pathExists = true → force = false →
      Cutter_run pathExists force useMd subs mdFile = (CutOutcome.skippedExists, [])) ∧
    (force = true →
      (Cutter_run pathExists force useMd subs mdFile).1 ≠ CutOutcome.skippedExists) := by
  constructor
  · rintro rfl rfl
    rfl
  · rintro rfl
    have hfc : _check_exists pathExists true = false := by cases pathExists <;> rfl
    unfold Cutter_run
    rw [if_neg (by simp [hfc])]
    split <;> simp

/-- C9, witness: a concrete run of both halves. -/
theorem c9_skip_exists_witness :
    Cutter_run true false false [] [] = (CutOutcome.skippedExists, []) ∧
    (Cutter_run true true false [] []).1 ≠ CutOutcome.skippedExists :=
  ⟨(c9_skip_exists true false false [] []).1 rfl rfl,
    (c9_skip_exists true true false [] []).2 rfl⟩

/-! ### Lemmas for the markup roundtrip -/

theorem linesOf_ne_nil (l : List Char) : linesOf l ≠ [] := by
  induction l with
  | nil => simp [linesOf]
  | cons c r ih => simp only [linesOf]; split <;> simp

theorem linesOf_cons_nl (r : List Char) : linesOf ('\n' :: r) = [] :: linesOf r := by
  simp [linesOf]

theorem linesOf_cons_ne {c : Char} (r : List Char) (hc : c ≠ '\n') :
    linesOf (c :: r) = (c :: (linesOf r).headD []) :: (linesOf r).tail := by
  simp [linesOf, hc]

theorem linesOf_append_nl (a b : List Char) :
    linesOf (a ++ '\n' :: b) = linesOf a ++ linesOf b := by
  induction a with
  | nil => simp [linesOf]
  | cons c a ih =>
    rw [List.cons_append]
    by_cases hc : c = '\n'
    · subst hc
      rw [linesOf_cons_nl, linesOf_cons_nl, ih, List.cons_append]
    · rw [linesOf_cons_ne _ hc, linesOf_cons_ne _ hc, ih]
      obtain ⟨h0, t0, hEq⟩ := List.exists_cons_of_ne_nil (linesOf_ne_nil a)
      rw [hEq]
      simp

theorem linesOf_no_nl (l : List Char) (hl : ∀ c ∈ l, c ≠ '\n') : linesOf l = [l] := by
  induction l with
  | nil => rfl
  | cons c r ih =>
    have hc : c ≠ '\n' := hl c (List.mem_cons_self c r)
    simp only [linesOf, if_neg hc]
    rw [ih fun d hd => hl d (List.mem_cons_of_mem c hd)]
    rfl

theorem linesOf_joinNL (ls : List (List Char)) (h : ls ≠ []) :
    linesOf (joinNL ls) = (ls.map linesOf).flatten := by
  induction ls with
  | nil => exact absurd rfl h
  | cons a ls ih =>
    cases ls with
    | nil => simp [joinNL]
    | cons b ls2 =>
      rw [show joinNL (a :: b :: ls2) = a ++ '\n' :: joinNL (b :: ls2) from rfl,
        linesOf_append_nl, ih (by simp)]
      simp

theorem markedGo_inert :
    ∀ (ls : List (List Char)) (ret : List ℕ),
      (∀ l ∈ ls, (∀ c, matchDone l = some c → c ≠ 'x') ∧
        (∀ c n, matchIndexLine l = some (c, n) → c ≠ 'x')) →
      markedGo false ret ls = (false, ret) := by
  intro ls
  induction ls with
  | nil => intro ret _; rfl
  | cons l ls ih =>
    intro ret h
    obtain ⟨hdone, hidx⟩ := h l (List.mem_cons_self l ls)
    simp only [markedGo]
    have h1 : (match matchDone l with
        | some c => decide (c = 'x')
        | none => false) = false := by
      cases hmd : matchDone l with
      | none => rfl
      | some c =>
        simp only [decide_eq_false_iff_not]
        exact hdone c hmd
    have h2 : (match matchIndexLine l with
        | some p => if p.1 = 'x' then ret ++ [p.2] else ret
        | none => ret) = ret := by
      cases hmi : matchIndexLine l with
      | none => rfl
      | some p => exact if_neg (hidx p.1 p.2 (by rw [hmi]))
    rw [h1, h2]
    exact ih ret fun l2 hl2 => h l2 (List.mem_cons_of_mem l hl2)

theorem checkbox_head_ne {c : Char} (l : List Char) (hc : c ≠ '-') :
    checkbox (c :: l) = none := by
  simp [checkbox, expectChar, hc]

theorem checkbox_none_headD (l : List Char) (h : l.headD ' ' ≠ '-') :
    checkbox l = none := by
  cases l with
  | nil => rfl
  | cons c r => exact checkbox_head_ne r (by simpa using h)

theorem inert_of_checkbox_none {l : List Char} (h : checkbox l = none) :
    (∀ c, matchDone l = some c → c ≠ 'x') ∧
    (∀ c n, matchIndexLine l = some (c, n) → c ≠ 'x') := by
  constructor
  · intro c hc
    simp [matchDone, h] at hc
  · intro c n hc
    simp [matchIndexLine, h] at hc

theorem checkbox_mdLine (s : Subtitle) :
    ∃ X, checkbox (mdLine s) = some (' ', '[' :: X) :=
  ⟨_, rfl⟩

theorem matchDone_mdLine (s : Subtitle) : matchDone (mdLine s) = none := rfl

theorem matchIndexLine_mdLine (s : Subtitle) :
    ∀ c n, matchIndexLine (mdLine s) = some (c, n) → c = ' ' := by
  obtain ⟨X, hX⟩ := checkbox_mdLine s
  intro c n hc
  unfold matchIndexLine at hc
  rw [hX] at hc
  replace hc : ((digits1 X).map fun m => (' ', m)) = some (c, n) := hc
  cases hdig : digits1 X with
  | none => rw [hdig] at hc; simp at hc
  | some m =>
    rw [hdig] at hc
    simp only [Option.map_some', Option.some.injEq, Prod.mk.injEq] at hc
    exact hc.1.symm

theorem mem_trimChars {c : Char} {l : List Char} (hc : c ∈ trimChars l) : c ∈ l := by
  unfold trimChars at hc
  rw [List.mem_reverse] at hc
  have h2 : c ∈ (l.dropWhile Char.isWhitespace).reverse :=
    (List.dropWhile_sublist _).subset hc
  rw [List.mem_reverse] at h2
  exact (List.dropWhile_sublist _).subset h2

theorem digitChar_ne_nl (d : ℕ) : digitChar d ≠ '\n' := by
  unfold digitChar
  have h : d % 10 < 10 := Nat.mod_lt _ (by norm_num)
  set k := d % 10 with hk
  interval_cases k <;> decide

theorem natCharsAux_ne_nl : ∀ (fuel n : ℕ), ∀ c ∈ natCharsAux fuel n, c ≠ '\n' := by
  intro fuel
  induction fuel with
  | zero => intro n c hc; simp [natCharsAux] at hc
  | succ fuel ih =>
    intro n c hc
    simp only [natCharsAux] at hc
    split at hc
    · rw [List.mem_singleton] at hc
      subst hc
      exact digitChar_ne_nl n
    · rcases List.mem_append.1 hc with h1 | h2
      · exact ih (n / 10) c h1
      · rw [List.mem_singleton] at h2
        subst h2
        exact digitChar_ne_nl _

theorem natChars_ne_nl (n : ℕ) : ∀ c ∈ natChars n, c ≠ '\n' :=
  fun c hc => natCharsAux_ne_nl (n + 1) n c hc

theorem fmtQ1_ne_nl (q : ℚ) : ∀ c ∈ fmtQ1 q, c ≠ '\n' := by
  intro c hc
  unfold fmtQ1 at hc
  rcases List.mem_append.1 hc with h1 | h2
  · rcases List.mem_append.1 h1 with h3 | h4
    · split at h3
      · rw [List.mem_singleton] at h3
        subst h3
        decide
      · simp at h3
    · exact natChars_ne_nl _ c h4
  · rcases List.mem_cons.1 h2 with rfl | h5
    · decide
    · rw [List.mem_singleton] at h5
      subst h5
      exact digitChar_ne_nl _

theorem mdLine_ne_nl (s : Subtitle) (h : ∀ c ∈ s.content, c ≠ '\n') :
    ∀ c ∈ mdLine s, c ≠ '\n' := by
  intro c hc
  unfold mdLine at hc
  rcases List.mem_append.1 hc with hA | hB
  · unfold pad15 at hA
    rcases List.mem_append.1 hA with hA1 | hA2
    · unfold mdPre at hA1
      rcases List.mem_append.1 hA1 with h1 | h9
      · rcases List.mem_append.1 h1 with h2 | h8
        · rcases List.mem_append.1 h2 with h3 | h6
          · rcases List.mem_append.1 h3 with h4 | h5
            · rcases List.mem_append.1 h4 with hM | h2b
              · exact (show ∀ x ∈ MARK, x ≠ '\n' by decide) c hM
              · exact (show ∀ x ∈ "[".toList, x ≠ '\n' by decide) c h2b
            · exact natChars_ne_nl _ c h5
          · exact (show ∀ x ∈ ",".toList, x ≠ '\n' by decide) c h6
        · exact fmtQ1_ne_nl _ c h8
      · exact (show ∀ x ∈ "s]".toList, x ≠ '\n' by decide) c h9
    · rw [List.eq_of_mem_replicate hA2]
      decide
  · rcases List.mem_cons.1 hB with rfl | hB2
    · decide
    · exact h c (mem_trimChars hB2)

theorem mdHeaderCore_ne_nl (b : List Char) (hb : ∀ c ∈ b, c ≠ '\n') :
    ∀ c ∈ mdHeaderCore b, c ≠ '\n' := by
  intro c hc
  unfold mdHeaderCore at hc
  rcases List.mem_append.1 hc with h1 | h8
  · rcases List.mem_append.1 h1 with h2 | h7
    · rcases List.mem_append.1 h2 with h3 | h6
      · rcases List.mem_append.1 h3 with h4 | h5
        · exact (show ∀ x ∈ "Texts generated from [".toList, x ≠ '\n' by decide) c h4
        · exact hb c h5
      · exact (show ∀ x ∈ "](".toList, x ≠ '\n' by decide) c h6
    · exact hb c h7
  · exact (show ∀ x ∈ "). Mark the sentences to keep for autocut. Then mark the following item if done editing.".toList, x ≠ '\n' by decide) c h8

/-! ### Claims about the markup roundtrip -/

/-- C8, counterexample: the roundtrip default fails for an arbitrary
timeline.  A subtitle whose text embeds a newline followed by a checked
sentinel line is split across lines on write, and the unedited import
returns `isComplete = true`. -/
theorem c8_counterexample :
    _marked_index (_save_md "v.srt".toList
      [⟨1, 0, 1, ("hi\n- [x] DONE EDITTING").toList⟩]) = (true, []) := by
  decide

/-- C8, amended: exporting then importing an unedited checklist yields
`isComplete = false` and an empty selected set for every timeline whose
entry texts (and whose displayed srt basename) contain no newline
character: every emitted line is unchecked, so the sentinel line imports
as unchecked and no index line is selected. -/
theorem c8_roundtrip_amended (basename : List Char) (subs : List Subtitle)
    (hb : ∀ c ∈ basename, c ≠ '\n')
    (hs : ∀ s ∈ subs, ∀ c ∈ s.content, c ≠ '\n') :
    _marked_index (_save_md basename subs) = (false, []) := by
  unfold _marked_index _save_md
  rw [linesOf_joinNL _ (by simp)]
  apply markedGo_inert
  intro l hl
  rw [List.mem_flatten] at hl
  obtain ⟨ls, hls, hlmem⟩ := hl
  rw [List.mem_map] at hls
  obtain ⟨line, hline, rfl⟩ := hls
  rcases List.mem_append.1 hline with hfix | hsub
  · simp only [List.mem_cons, List.not_mem_nil, or_false] at hfix
    rcases hfix with rfl | rfl | rfl
    · -- the header line
      have hsplit : linesOf (mdHeader basename) = [mdHeaderCore basename, []] := by
        unfold mdHeader
        rw [linesOf_append_nl, linesOf_no_nl _ (mdHeaderCore_ne_nl basename hb)]
        rfl
      rw [hsplit] at hlmem
      rcases List.mem_cons.1 hlmem with rfl | h2
      · have hT : (mdHeaderCore basename).headD ' ' = 'T' := rfl
        exact inert_of_checkbox_none (checkbox_none_headD _ (by rw [hT]; decide))
      · rw [List.mem_singleton] at h2
        subst h2
        exact inert_of_checkbox_none rfl
    · -- the DONE EDITTING line, emitted unchecked
      rw [linesOf_no_nl _ (by decide), List.mem_singleton] at hlmem
      subst hlmem
      constructor
      · intro c hc
        rw [show matchDone mdDoneLine = some ' ' from rfl] at hc
        cases hc
        decide
      · intro c n hc
        rw [show matchIndexLine mdDoneLine = none from rfl] at hc
        exact Option.noConfusion hc
    · -- the format reminder line
      have hsplit : linesOf mdFormatLine = [[], mdFormatCore, []] := by
        unfold mdFormatLine
        rw [linesOf_cons_nl, linesOf_append_nl, linesOf_no_nl _ (by decide)]
        rfl
      rw [hsplit] at hlmem
      rcases List.mem_cons.1 hlmem with rfl | h2
      · exact inert_of_checkbox_none rfl
      rcases List.mem_cons.1 h2 with rfl | h3
      · have hT : mdFormatCore.headD ' ' = 'T' := rfl
        exact inert_of_checkbox_none (checkbox_none_headD _ (by rw [hT]; decide))
      · rw [List.mem_singleton] at h3
        subst h3
        exact inert_of_checkbox_none rfl
  · -- a subtitle line
    rw [List.mem_map] at hsub
    obtain ⟨s, hsmem, rfl⟩ := hsub
    rw [linesOf_no_nl _ (mdLine_ne_nl s (hs s hsmem)), List.mem_singleton] at hlmem
    subst hlmem
    constructor
    · intro c hc
      rw [matchDone_mdLine s] at hc
      exact Option.noConfusion hc
    · intro c n hc
      rw [matchIndexLine_mdLine s c n hc]
      decide

/-- C8, witness: the amended theorem run on a concrete newline-free
timeline. -/
theorem c8_roundtrip_witness :
    (∀ c ∈ "v.srt".toList, c ≠ '\n') ∧
    (∀ s ∈ [(⟨1, 0, 1, "ok".toList⟩ : Subtitle)], ∀ c ∈ s.content, c ≠ '\n') ∧
    _marked_index (_save_md "v.srt".toList [⟨1, 0, 1, "ok".toList⟩]) = (false, []) :=
  ⟨by decide, by decide,
    c8_roundtrip_amended "v.srt".toList [⟨1, 0, 1, "ok".toList⟩] (by decide) (by decide)⟩

end AutoCut
